import Mathlib

/-!
Verification development for the `d3_web-control` force-graph component
(`src/Graph/Force.js`).  The graph model, its index structures, the BFS
shortest-path queries, the filter/reset state operations, the per-tick edge
geometry and the zoom arithmetic are embedded as pure Lean functions, and the
spec's testable properties are settled against them.

Modelling conventions:
* JS objects used as string-keyed maps become association lists
  (`alistGet`/`alistSet` mirror property read / property write).
* JS arrays used as integer-keyed maps (`adjList`, `edgeTo`, `marker`) become
  association lists over `Int`; reading an absent property yields `none`
  (JS `undefined`), including for negative indices such as `indexOf` misses.
* JS numbers that hold counts or indices become `Nat`/`Int`; the geometry and
  zoom arithmetic, which the source performs on floating-point numbers, is
  modelled exactly over `ℚ` (with `Math.log`/`Math.sqrt` kept abstract as
  function parameters, since only the algebraic shape of the formulas is at
  stake).
* A thrown `TypeError` (indexing into `undefined`) is modelled by an `Option`
  result: `none` means the call threw.
-/

namespace ForceGraph

/-- Association-list read, mirroring a JS object property read
(`m[k]`, `undefined` ↦ `none`). -/
def alistGet {α β : Type} [BEq α] : List (α × β) → α → Option β
  | [], _ => none
  | (k, v) :: tl, k' => if k == k' then some v else alistGet tl k'

/-- Association-list write, mirroring a JS object property write (`m[k] = v`):
overwrites an existing binding, otherwise appends a new one. -/
def alistSet {α β : Type} [BEq α] : List (α × β) → α → β → List (α × β)
  | [], k, v => [(k, v)]
  | (k0, v0) :: tl, k, v =>
    if k0 == k then (k0, v) :: tl else (k0, v0) :: alistSet tl k v

/-- `Array.prototype.indexOf`: first index of `s`, or `-1` when absent. -/
def indexOfAux : List String → String → Int → Int
  | [], _, _ => -1
  | a :: tl, s, i => if a == s then i else indexOfAux tl s (i + 1)

/-- `this.vertexesMap.indexOf(id)` (source lines 126-127, 1212-1213). -/
def indexOfStr (l : List String) (s : String) : Int :=
  indexOfAux l s 0

/-- Read `vertexesMap[i]` as a JS array access: `none` models `undefined`
(negative index or out of range). -/
def vmapGet (l : List String) (i : Int) : Option String :=
  if 0 ≤ i then l.get? i.toNat else none

/-- A vertex record.  Only the fields the verified operations touch are kept:
`_id` and the mutable `state` tag (`none` models an absent JS property).  All
other payload fields (`name`, `type`, positions, …) are carried through the
source operations unchanged and are irrelevant to the claims. -/
structure Vertex where
  id : String
  state : Option String
deriving DecidableEq, Repr

/-- An edge record: `_id`, `_from`, `_to`, the mutable `state` tag and the
three multiplicity fields written by `setEdgeIndex`.  Input data carries
`edgeIndex = siblingNum = labelDirection = 0` (absent JS properties; they are
overwritten before any read).  The `source`/`target` aliases assigned in
`preprocessData` are consumed (and replaced by object references) by the
external d3 simulator and are not modelled. -/
structure Edge where
  id : String
  fromId : String
  toId : String
  state : Option String
  edgeIndex : Nat
  siblingNum : Nat
  labelDirection : Nat
deriving DecidableEq, Repr

/-- `v.state = v.state || 'normal'` (source line 122). -/
def normVertex (v : Vertex) : Vertex :=
  { v with state := some (v.state.getD "normal") }

/-- `e.state = e.state || 'normal'` (source line 130). -/
def normEdge (e : Edge) : Edge :=
  { e with state := some (e.state.getD "normal") }

/-! ### setEdgeIndex (source lines 171-192)

`edgeNumMap` and `edgeDirection` are JS objects keyed by the *string
concatenation* `e._from + e._to` (and the reverse concatenation); `numGet`
reads a count with `0` for `undefined`, matching the falsy test
`!edgeNumMap[k]` since stored counts are always ≥ 1. -/

/-- Read of `edgeNumMap[k]` under the source's falsy test. -/
def numGet (m : List (String × Nat)) (k : String) : Nat :=
  (alistGet m k).getD 0

/-- The two maps threaded through the first `forEach` of `setEdgeIndex`. -/
structure EdgeMaps where
  num : List (String × Nat)
  dir : List (String × String)
deriving Repr

/-- First pass of `setEdgeIndex` (source lines 175-187): per edge, either
initialise both orientations of the pair key to 1 (and record the
first-encountered `_from` in `edgeDirection`), or increment both orientations
sequentially — for a self-loop both writes hit the *same* key, so the counter
advances by 2.  Each edge's `edgeIndex` is the forward-key count right after
its own update. -/
def setEdgeIndexPass1 : EdgeMaps → List Edge → (List Edge × EdgeMaps)
  | maps, [] => ([], maps)
  | maps, e :: tl =>
    let kf := e.fromId ++ e.toId
    let kr := e.toId ++ e.fromId
    let maps' : EdgeMaps :=
      if numGet maps.num kf = 0 then
        { num := alistSet (alistSet maps.num kr 1) kf 1,
          dir := alistSet (alistSet maps.dir kr e.fromId) kf e.fromId }
      else
        let m1 := alistSet maps.num kf (numGet maps.num kf + 1)
        { maps with num := alistSet m1 kr (numGet m1 kr + 1) }
    let rest := setEdgeIndexPass1 maps' tl
    ({ e with edgeIndex := numGet maps'.num kf } :: rest.1, rest.2)

/-- `setEdgeIndex` (source lines 171-192): first pass assigns `edgeIndex`,
second pass assigns the final pair count as `siblingNum` and sets
`labelDirection` to 1 exactly when `edgeDirection[kf] === e._from`. -/
def setEdgeIndex (edges : List Edge) : List Edge :=
  let p := setEdgeIndexPass1 ⟨[], []⟩ edges
  p.1.map fun e =>
    { e with
      siblingNum := numGet p.2.num (e.fromId ++ e.toId),
      labelDirection :=
        if alistGet p.2.dir (e.fromId ++ e.toId) == some e.fromId then 1 else 0 }

/-! ### The Force instance state

The fields of `class Force` that the verified operations read or write.
`this.data` is the input object retained by the `BaseGraph` constructor;
`dataV`/`dataE` hold the *values* of `this.data.vertexes` / `this.data.edges`.
`marker` is not part of the state: `bfs` rewrites `marker[i] = false` for
every index of `vertexesMap` on entry (source lines 1238-1240), so each call
sees a fresh marker (the only entry escaping the reset, `marker[-1]`, is never
read).  Raw-mode filters hand the *same* element objects to the working sets
and to `this.data`; the in-place writes `preprocessData` performs on shared
elements are propagated to `dataV`/`dataE` inside `filterVertex`/`filterEdge`
below, which is exact for consecutive raw-mode operations (the only aliasing
pattern the claims exercise; `resetData` aliasing is treated separately with
an explicit heap model). -/
structure ForceState where
  dataV : List Vertex
  dataE : List Edge
  vertexes : List Vertex
  edges : List Edge
  vertexesMap : List String
  adjList : List (Int × List (Int × List String))
  edgeTo : List (Int × Int)
deriving DecidableEq, Repr

/-- Insert an edge id into the inner map of `adjList[from]`, i.e.
`adjList[from][to].push(id)` with `|| {}` / `|| []` initialisation (source
lines 131-133).  The inner object is kept ordered by ascending key, matching
`Object.keys` enumeration order for JS array-index keys (the keys are
`indexOf` results, hence ≥ 0 for every edge whose endpoint exists). -/
def innerInsert : List (Int × List String) → Int → String → List (Int × List String)
  | [], t, eid => [(t, [eid])]
  | (k, l) :: tl, t, eid =>
    if t = k then (k, l ++ [eid]) :: tl
    else if t < k then (t, [eid]) :: (k, l) :: tl
    else (k, l) :: innerInsert tl t eid

/-- One step of the adjacency build (source lines 131-133). -/
def adjInsert (adj : List (Int × List (Int × List String))) (f t : Int)
    (eid : String) : List (Int × List (Int × List String)) :=
  match alistGet adj f with
  | none => alistSet adj f [(t, [eid])]
  | some inner => alistSet adj f (innerInsert inner t eid)

/-- `preprocessData` (source lines 119-143).  Note what it does *not* do: it
never clears `vertexesMap`, `adjList` or `edgeTo`, it appends the current
vertex ids to the existing `vertexesMap` and pushes into the existing
`adjList` entries.  The `layout()` call only configures the external d3
simulator and is out of scope. -/
def preprocessData (st : ForceState) : ForceState :=
  let vmap := st.vertexesMap ++ st.vertexes.map (·.id)
  let adj := st.edges.foldl
    (fun a e => adjInsert a (indexOfStr vmap e.fromId) (indexOfStr vmap e.toId) e.id)
    st.adjList
  { st with
    vertexes := st.vertexes.map normVertex,
    edges := setEdgeIndex (st.edges.map normEdge),
    vertexesMap := vmap,
    adjList := adj }

/-- Modelled from the spec: the `this.data` retention is performed by the
`BaseGraph` constructor, which is not part of the sources; per spec §4.1
("constructed once per graph instance from a deep-copied raw snapshot",
"retains one immutable deep copy of the original input for reset"),
`dataV`/`dataE` start as the input values.  The rest follows the `Force`
constructor (source lines 82-96): working `vertexes`/`edges` are deep copies
of the input, and `idMap`/`adjList`/`vertexesMap`/`edgeTo`/`marker` start
empty. -/
def mkForce (dv : List Vertex) (de : List Edge) : ForceState :=
  ⟨dv, de, dv, de, [], [], []⟩

/-! ### BFS and shortest path (source lines 1210-1275) -/

/-- The `Object.keys(adjList[item]).forEach` body (source lines 1253-1259):
for each unmarked neighbour, record the predecessor, enqueue, mark.  The
accumulator is `(marker, queue, edgeTo)`. -/
def bfsScan (item : Int) (inner : List (Int × List String))
    (acc : List Int × List Int × List (Int × Int)) :
    List Int × List Int × List (Int × Int) :=
  inner.foldl
    (fun acc kv =>
      let (marker, queue, edgeTo) := acc
      if marker.contains kv.1 then acc
      else (kv.1 :: marker, queue ++ [kv.1], alistSet edgeTo kv.1 item))
    acc

/-- The `while (queue.length > 0)` loop of `bfs` (source lines 1246-1261).
`fuel` bounds the number of dequeues; every enqueue marks a previously
unmarked index `< vertexesMap.length`, so `vertexesMap.length + 1` dequeues
always suffice and the fuel never runs out on the source's executions. -/
def bfsAux (adj : List (Int × List (Int × List String))) :
    Nat → List Int → List Int → List (Int × Int) → List (Int × Int)
  | 0, _, _, edgeTo => edgeTo
  | _ + 1, _, [], edgeTo => edgeTo
  | fuel + 1, marker, item :: rest, edgeTo =>
    match alistGet adj item with
    | none => bfsAux adj fuel marker rest edgeTo
    | some inner =>
      let acc := bfsScan item inner (marker, rest, edgeTo)
      bfsAux adj fuel acc.1 acc.2.1 acc.2.2

/-- `bfs(vertexNum)` (source lines 1237-1264): resets `marker` (hence the
fresh `[v]` marker below), marks and enqueues the start, runs the queue loop.
It returns the updated `edgeTo` store — crucially, the entries of the
*previous* `edgeTo` are kept unless overwritten. -/
def bfs (st : ForceState) (v : Int) : List (Int × Int) :=
  bfsAux st.adjList (st.vertexesMap.length + 1) [v] [v] st.edgeTo

/-- `pathTo(from, to)` (source lines 1266-1275): walk `edgeTo` back from `to`
until reaching `from` or an unset entry, then append `from`.  `fuel` bounds
the walk; on every terminating source execution the chain visits distinct
keys, so `edgeTo.length + 1` steps suffice (a stale `edgeTo` containing a
cycle makes the source loop forever; the model then stops at the fuel bound,
a case no claim exercises). -/
def pathTo (edgeTo : List (Int × Int)) : Nat → Int → Int → List Int
  | 0, f, _ => [f]
  | fuel + 1, f, t =>
    if t ≠ f then
      match alistGet edgeTo t with
      | some prev => t :: pathTo edgeTo fuel f prev
      | none => [f]
    else [f]

/-- Result record of `shortestPath` / `radiationVertex` / `relationVertex`.
`vertexIds` entries are `Option String` because the source pushes
`vertexesMap[v]`, which is `undefined` when `v` is not a valid index. -/
structure PathResult where
  vertexIds : List (Option String)
  edgeIds : List (Option String)
deriving DecidableEq, Repr

/-- `adjList[v][path[i-1]][0]` (source line 1228): `none` (a thrown
`TypeError`) when `adjList[v]` or `adjList[v][prev]` is `undefined`; otherwise
the first recorded edge id (`undefined` if the list were empty, which the
construction never produces). -/
def hopEdge (adj : List (Int × List (Int × List String))) (v prev : Int) :
    Option (Option String) :=
  match alistGet adj v with
  | none => none
  | some inner =>
    match alistGet inner prev with
    | none => none
    | some l => some l.head?

/-- The `path.forEach` of `shortestPath` (source lines 1225-1230), walking the
path front to back; `prev?` is the previous element.  A `none` result models
the `TypeError` thrown by `adjList[v][path[i-1]][0]` on a missing entry. -/
def collectIds (vmap : List String) (adj : List (Int × List (Int × List String))) :
    Option Int → List Int → Option PathResult
  | _, [] => some ⟨[], []⟩
  | none, v :: rest =>
    (collectIds vmap adj (some v) rest).map
      (fun r => ⟨vmapGet vmap v :: r.vertexIds, r.edgeIds⟩)
  | some p, v :: rest =>
    match hopEdge adj v p with
    | none => none
    | some eid =>
      (collectIds vmap adj (some v) rest).map
        (fun r => ⟨vmapGet vmap v :: r.vertexIds, eid :: r.edgeIds⟩)

/-- `shortestPath(source, target)` (source lines 1210-1235).  The source
receives vertex objects and only reads `._id`, so the model takes the two
ids.  Returns the result (`none` = the call threw) together with the updated
state (`bfs` wrote `this.edgeTo`). -/
def shortestPath (st : ForceState) (sourceId targetId : String) :
    Option PathResult × ForceState :=
  let f := indexOfStr st.vertexesMap sourceId
  let t := indexOfStr st.vertexesMap targetId
  let edgeTo' := bfs st f
  let st' := { st with edgeTo := edgeTo' }
  let path := pathTo edgeTo' (edgeTo'.length + 1) f t
  if path.length ≤ 1 then
    (some ⟨[some targetId], []⟩, st')
  else
    (collectIds st'.vertexesMap st'.adjList none path, st')

/-! ### filterVertex / filterEdge / resetData (source lines 1038-1119) -/

/-- JS `Array.from(new Set(l))`: de-duplicate keeping first occurrences. -/
def dedupFirst (l : List String) : List String :=
  l.foldl (fun acc a => if acc.contains a then acc else acc ++ [a]) []

/-- Raw-mode write-back for edges: the survivors of `this.data.edges` are the
very objects that `preprocessData` just rewrote (the working list `proc`), so
each element of `orig` satisfying `cond` takes the next value of `proc`. -/
def spliceBack (cond : Edge → Bool) : List Edge → List Edge → List Edge
  | [], _ => []
  | e :: tl, proc =>
    if cond e then
      match proc with
      | p :: ps => p :: spliceBack cond tl ps
      | [] => e :: spliceBack cond tl []
    else e :: spliceBack cond tl proc

/-- The vertex-id pool `filterVertex` builds while filtering edges (source
lines 1057-1064): pushes `_to` then `_from` of every kept edge. -/
def vertexIdsOfKeptV (keptE : List Edge) : List String :=
  dedupFirst (keptE.foldl (fun acc e => acc ++ [e.toId, e.fromId]) [])

/-- The edge-survival test of `filterVertex` (source line 1058). -/
def touchesFilterIds (filterIds : List String) (e : Edge) : Bool :=
  filterIds.contains e.fromId || filterIds.contains e.toId

/-- The edges surviving a `filterVertex` pass (source lines 1048-1064): those
touching a vertex that satisfied the predicate. -/
def keptEdges (p : Vertex → Bool) (vs : List Vertex) (es : List Edge) : List Edge :=
  es.filter (touchesFilterIds ((vs.filter p).map (·.id)))

/-- The vertices surviving a `filterVertex` pass (source lines 1066-1075):
those touched by a surviving edge. -/
def keptVertexes (p : Vertex → Bool) (vs : List Vertex) (es : List Edge) : List Vertex :=
  vs.filter fun v => (vertexIdsOfKeptV (keptEdges p vs es)).contains v.id

/-- `filterVertex(filter, isRaw)` (source lines 1038-1080): evaluate the
predicate over the raw (`this.data`) or working sets, keep edges touching a
surviving vertex, re-derive the vertex set from the kept edges, then run
`preprocessData`.  In raw mode the kept elements *are* `this.data`'s
elements, so the in-place writes of `preprocessData` (state normalisation,
`setEdgeIndex` fields) are reflected into `dataV`/`dataE`. -/
def filterVertex (p : Vertex → Bool) (isRaw : Bool) (st : ForceState) : ForceState :=
  let vs := if isRaw then st.dataV else st.vertexes
  let es := if isRaw then st.dataE else st.edges
  let keptE := keptEdges p vs es
  let keptV := keptVertexes p vs es
  let st1 := preprocessData { st with vertexes := keptV, edges := keptE }
  if isRaw then
    { st1 with
      dataV := st.dataV.map fun v =>
        if (vertexIdsOfKeptV keptE).contains v.id then normVertex v else v,
      dataE := spliceBack (touchesFilterIds ((vs.filter p).map (·.id))) st.dataE st1.edges }
  else st1

/-- `filterEdge(filter, isRaw)` (source lines 1081-1113): keep edges
satisfying the predicate, derive surviving vertices from the kept edges
(pushing `_from` then `_to`), then `preprocessData`; raw-mode write-back as in
`filterVertex`. -/
def filterEdge (p : Edge → Bool) (isRaw : Bool) (st : ForceState) : ForceState :=
  let vs := if isRaw then st.dataV else st.vertexes
  let es := if isRaw then st.dataE else st.edges
  let keptE := es.filter p
  let vertexIds := dedupFirst (keptE.foldl (fun acc e => acc ++ [e.fromId, e.toId]) [])
  let keptV := vs.filter fun v => vertexIds.contains v.id
  let st1 := preprocessData { st with vertexes := keptV, edges := keptE }
  if isRaw then
    { st1 with
      dataV := st.dataV.map fun v =>
        if vertexIds.contains v.id then normVertex v else v,
      dataE := spliceBack p st.dataE st1.edges }
  else st1

/-! ### Neighborhood queries (source lines 1281-1314) -/

/-- `radiationVertex(d)` (source lines 1281-1295): `d._id` followed, per
outgoing edge in working-set order, by the edge's `_to` (no de-duplication)
and the edge id.  Every pushed entry is a real string, hence the `some`s. -/
def radiationVertex (st : ForceState) (dId : String) : PathResult :=
  let acc := st.edges.foldl
    (fun (acc : List String × List String) e =>
      if e.fromId == dId then (acc.1 ++ [e.toId], acc.2 ++ [e.id]) else acc)
    ([dId], [])
  ⟨acc.1.map some, acc.2.map some⟩

/-- `relationVertex(d)` (source lines 1298-1314): `d._id` plus both endpoints
of every incident edge, de-duplicated via `new Set`, and all incident edge
ids. -/
def relationVertex (st : ForceState) (dId : String) : PathResult :=
  let acc := st.edges.foldl
    (fun (acc : List String × List String) e =>
      if e.fromId == dId || e.toId == dId then
        (acc.1 ++ [e.toId, e.fromId], acc.2 ++ [e.id])
      else acc)
    ([dId], [])
  ⟨(dedupFirst acc.1).map some, acc.2.map some⟩

/-! ### Per-tick edge geometry (source lines 206-248)

The arithmetic the tick handler performs on the simulated positions, over `ℚ`
with `Math.sqrt` and `Math.log` abstract.  Only non-self-loop edges are
modelled (the self-loop cubic of lines 250-273 is not touched by any claim).
-/

/-- The arc radius `dr` computed by `onTick` (source lines 217-229) for an
edge with the given index data, given the coordinate differences
`dx = target.x - source.x`, `dy = target.y - source.y`. -/
def onTickRadius (sqrtQ logQ : ℚ → ℚ) (dx dy : ℚ) (edgeIndex siblingNum : ℚ) : ℚ :=
  let dr := if siblingNum > 1 then sqrtQ (dx * dx + dy * dy) else 0
  let middleIdx := (siblingNum + 1) / 2
  if siblingNum > 1 then
    if edgeIndex = middleIdx then 0
    else dr / (logQ (|edgeIndex - middleIdx| * (7 / 10) + 1) + 1 / (10 * edgeIndex ^ 2))
  else dr

/-- The sweep flag computed by `onTick` (source lines 230-233): 1 when
`edgeIndex > middleIdx`, else 0, then replaced by its complement when
`labelDirection` is truthy. -/
def onTickSweep (edgeIndex siblingNum : ℚ) (labelDirection : Nat) : Nat :=
  let middleIdx := (siblingNum + 1) / 2
  let sweepFlag := if edgeIndex > middleIdx then 1 else 0
  if labelDirection ≠ 0 then 1 - sweepFlag else sweepFlag

/-- The radius formula exactly as the spec words it (§4.2): "circular arc of
radius = euclideanDistance / (ln(|edgeIndex − middleIndex|·0.7 + 1) +
1/(10·edgeIndex²)), where middleIndex = (siblingNum+1)/2". -/
def specArcRadius (sqrtQ logQ : ℚ → ℚ) (dx dy : ℚ) (edgeIndex siblingNum : ℚ) : ℚ :=
  sqrtQ (dx * dx + dy * dy) /
    (logQ (|edgeIndex - (siblingNum + 1) / 2| * (7 / 10) + 1) +
      1 / (10 * edgeIndex ^ 2))

/-- The sweep flag as claim C8 words it: base flag `edgeIndex > middleIndex`,
"inverted exactly when labelDirection indicates the pair's canonical
direction is reversed relative to this edge". -/
def claimSweep (edgeIndex siblingNum : ℚ) (reversed : Bool) : Nat :=
  let middleIdx := (siblingNum + 1) / 2
  let sweepFlag := if edgeIndex > middleIdx then 1 else 0
  if reversed then 1 - sweepFlag else sweepFlag

/-! ### zoomTo (source lines 929-965) -/

/-- A d3 zoom transform `(k, x, y)`. -/
structure Transform where
  k : ℚ
  x : ℚ
  y : ℚ
deriving DecidableEq, Repr

/-- `zoomTo(scale)` (source lines 929-965): no-op when pushing past a bound
already reached in that direction; otherwise clamp the target scale to
`[ext.1, ext.2]` and translate so the container center `(cx, cy)` satisfies
`(center − next)/nextK = (center − cur)/curK`. -/
def zoomTo (t : Transform) (ext : ℚ × ℚ) (cx cy : ℚ) (scale : ℚ) : Transform :=
  let curK := t.k
  if (scale - curK > 0 ∧ curK = ext.2) ∨ (scale - curK < 0 ∧ curK = ext.1) then t
  else
    let nextK := if scale < ext.1 then ext.1 else if scale > ext.2 then ext.2 else scale
    { k := nextK,
      x := cx - (cx - t.x) / curK * nextK,
      y := cy - (cy - t.y) / curK * nextK }

/-! ### Heap model for `resetData` aliasing (source lines 82-87, 1114-1119)

`resetData` executes `this.vertexes = this.data.vertexes` — it installs the
*same array of the same objects*, not a copy.  To reason about such sharing
the object graph is made explicit: vertex/edge objects live in heaps indexed
by `Nat` references, and the instance fields hold reference lists.  The same
source operations as above are replayed at the reference level; an in-place
write through any reference is then visible through every field holding it. -/

/-- Heap-level Force state: object heaps plus the reference lists held by
`this.data.vertexes`/`this.data.edges` and `this.vertexes`/`this.edges`. -/
structure HeapForce where
  vheap : List Vertex
  eheap : List Edge
  dataV : List Nat
  dataE : List Nat
  workV : List Nat
  workE : List Nat
deriving DecidableEq, Repr

/-- Dereference a vertex (traces only use valid references). -/
def getV (s : HeapForce) (r : Nat) : Vertex := s.vheap.getD r ⟨"", none⟩

/-- Dereference an edge. -/
def getE (s : HeapForce) (r : Nat) : Edge := s.eheap.getD r ⟨"", "", "", none, 0, 0, 0⟩

/-- Values of `this.vertexes`. -/
def workVertexValues (s : HeapForce) : List Vertex := s.workV.map (getV s)

/-- Values of `this.data.vertexes` (the retained snapshot). -/
def dataVertexValues (s : HeapForce) : List Vertex := s.dataV.map (getV s)

/-- Modelled from the spec: `this.data`, which `resetData` reads, is retained
by the `BaseGraph` constructor (not in the sources); per spec §4.1 ("retains
one immutable deep copy of the original input") it is modelled as a separate
deep copy of the input — the most favourable reading, since any aliasing of
the caller's objects would only add further sharing.  The working sets follow
the `Force` constructor (source lines 82-87): `this.vertexes`/`this.edges`
are deep copies of the input, i.e. fresh objects with the same values. -/
def mkHeapForce (vs : List Vertex) (es : List Edge) : HeapForce :=
  { vheap := vs ++ vs
    eheap := es ++ es
    dataV := List.range vs.length
    dataE := List.range es.length
    workV := (List.range vs.length).map (· + vs.length)
    workE := (List.range es.length).map (· + es.length) }

/-- Heap-level `preprocessData` (source lines 119-143), restricted to its
in-place object writes: normalise every working vertex's and edge's `state`
and rewrite the `setEdgeIndex` fields of the working edges.  The index
structures (`vertexesMap`, `adjList`) are value-level and tracked by
`ForceState`; the reset claim never queries them. -/
def preprocessDataHeap (s : HeapForce) : HeapForce :=
  let vheap := s.workV.foldl (fun h r => h.set r (normVertex (h.getD r ⟨"", none⟩))) s.vheap
  let evals := setEdgeIndex ((s.workE.map (getE s)).map normEdge)
  let eheap := (s.workE.zip evals).foldl (fun h rv => h.set rv.1 rv.2) s.eheap
  { s with vheap := vheap, eheap := eheap }

/-- Heap-level `filterVertex` (source lines 1038-1080): identical control flow
to `filterVertex` above, but selecting references; `this.edges = edges.filter(…)`
copies the array, never the objects. -/
def filterVertexHeap (p : Vertex → Bool) (isRaw : Bool) (s : HeapForce) : HeapForce :=
  let vrefs := if isRaw then s.dataV else s.workV
  let erefs := if isRaw then s.dataE else s.workE
  let filterIds := (vrefs.filter fun r => p (getV s r)).map fun r => (getV s r).id
  let keptE := erefs.filter fun r => touchesFilterIds filterIds (getE s r)
  let vertexIds := dedupFirst (keptE.foldl (fun acc r => acc ++ [(getE s r).toId, (getE s r).fromId]) [])
  let keptV := vrefs.filter fun r => vertexIds.contains (getV s r).id
  preprocessDataHeap { s with workV := keptV, workE := keptE }

/-- `resetData()` (source lines 1114-1119): `this.vertexes = this.data.vertexes`
and `this.edges = this.data.edges` — reference assignment, no copying, no
index rebuild. -/
def resetData (s : HeapForce) : HeapForce :=
  { s with workV := s.dataV, workE := s.dataE }

/-- A client-side in-place mutation of a vertex object obtained from the
working set (e.g. via `getVertexById`, source lines 996-1001, which returns
the working array's element itself): write through the i-th working
reference. -/
def mutateWorkVertex (i : Nat) (f : Vertex → Vertex) (s : HeapForce) : HeapForce :=
  match s.workV.get? i with
  | none => s
  | some r => { s with vheap := s.vheap.set r (f (getV s r)) }

/-! ### Reachability

Reachability along the adjacency index, the spec-level notion behind
"target is unreachable": a step from `a` to `b` exists when the index holds
an entry `adjList[a][b]`. -/

/-- One adjacency hop. -/
def adjStep (adj : List (Int × List (Int × List String))) (a b : Int) : Prop :=
  ∃ inner l, alistGet adj a = some inner ∧ alistGet inner b = some l

/-- Reachability: reflexive-transitive closure of `adjStep`. -/
def Reach (adj : List (Int × List (Int × List String))) : Int → Int → Prop :=
  Relation.ReflTransGen (adjStep adj)

/-! ### Concrete instances used by the claim theorems and their witnesses -/

/-- Vertex `A` as it appears in raw input (no `state` property yet). -/
def vertexA : Vertex := ⟨"A", none⟩

/-- Vertex `B`. -/
def vertexB : Vertex := ⟨"B", none⟩

/-- Vertex `C`. -/
def vertexC : Vertex := ⟨"C", none⟩

/-- Vertex `D`. -/
def vertexD : Vertex := ⟨"D", none⟩

/-- Edge `e1 : A → B`. -/
def edgeAB : Edge := ⟨"e1", "A", "B", none, 0, 0, 0⟩

/-- Edge `e2 : B → C`. -/
def edgeBC : Edge := ⟨"e2", "B", "C", none, 0, 0, 0⟩

/-- A second edge `A → B`, parallel to `edgeAB` (claim C8's concrete pair). -/
def edgeABbis : Edge := ⟨"e2", "A", "B", none, 0, 0, 0⟩

/-- Edge `f2 : B → A`, opposite in direction to `edgeAB`. -/
def edgeBA : Edge := ⟨"f2", "B", "A", none, 0, 0, 0⟩

/-- Self-loop `s1 : A → A`. -/
def loopS1 : Edge := ⟨"s1", "A", "A", none, 0, 0, 0⟩

/-- Self-loop `s2 : A → A`. -/
def loopS2 : Edge := ⟨"s2", "A", "A", none, 0, 0, 0⟩

/-- Edge `g2 : C → D` (second connected component for the C4 trace). -/
def edgeCD : Edge := ⟨"g2", "C", "D", none, 0, 0, 0⟩

/-- The A→B→C chain after construction and preprocessing. -/
def stChain : ForceState :=
  preprocessData (mkForce [vertexA, vertexB, vertexC] [edgeAB, edgeBC])

/-- `stChain` after `filterEdge` keeping only `e1` (which reruns
`preprocessData` on the shrunk working sets). -/
def stChainFiltered : ForceState :=
  filterEdge (fun e => e.id == "e1") false stChain

/-- Two disconnected arrows A→B and C→D, preprocessed. -/
def stTwoComp : ForceState :=
  preprocessData (mkForce [vertexA, vertexB, vertexC, vertexD] [edgeAB, edgeCD])

/-- The A→B graph after construction and preprocessing (loaded, with the
`this.data` snapshot still pristine). -/
def stLoadedAB : ForceState :=
  preprocessData (mkForce [vertexA, vertexB] [edgeAB])

/-- A pure predicate on a vertex record: "has no `state` property". -/
def stateMissing : Vertex → Bool := fun v => v.state.isNone

/-- One raw-mode `filterVertex(stateMissing, true)` on the loaded graph. -/
def rawOnce : ForceState := filterVertex stateMissing true stLoadedAB

/-- The same raw-mode filter applied a second time. -/
def rawTwice : ForceState := filterVertex stateMissing true rawOnce

/-- Heap trace for the reset claim: constructor on `[A, B]` with `e1`. -/
def heapStart : HeapForce := mkHeapForce [vertexA, vertexB] [edgeAB]

/-- …then loaded (preprocessed). -/
def heapLoaded : HeapForce := preprocessDataHeap heapStart

/-- …then `filterVertex(() => true, isRaw = true)`. -/
def heapRawFiltered : HeapForce := filterVertexHeap (fun _ => true) true heapLoaded

/-- …then `resetData()`. -/
def heapReset : HeapForce := resetData heapRawFiltered

/-- …then a client mutates the first vertex obtained from the working set. -/
def heapMutated : HeapForce :=
  mutateWorkVertex 0 (fun v => { v with state := some "highlight" }) heapReset

/-! ## Theorems -/

/-- Claim C1, counterexample: on the A→B→C chain with edges e1(A→B), e2(B→C),
`shortestPath(A, C)` does *not* return vertexIds `["A","B","C"]` with edgeIds
`["e1","e2"]` — `pathTo` builds the ordinal path from the target back to the
source and `shortestPath` never reverses it. -/
theorem shortestPath_chain_not_source_to_target :
    (shortestPath stChain "A" "C").1 ≠
      some ⟨[some "A", some "B", some "C"], [some "e1", some "e2"]⟩ := by
  decide

/-- Claim C1, amended: on that chain `shortestPath(A, C)` returns the id
sequence from *target to source*, `["C","B","A"]`, and edgeIds with one entry
per hop in that (reversed) order, `["e2","e1"]`. -/
theorem shortestPath_chain_target_to_source :
    (shortestPath stChain "A" "C").1 =
      some ⟨[some "C", some "B", some "A"], [some "e2", some "e1"]⟩ := by
  decide

/-- Claim C2: on the failing input of two parallel self-loops s1, s2 at A
(a vertex paired with itself, k = 2), `setEdgeIndex` assigns edgeIndex values
`[1, 3]` — not `{1, 2}` — and siblingNum 3 — not 2 — because the `else`
branch increments the same concatenated key `"AA"` twice per self-loop. -/
theorem setEdgeIndex_selfloop_eval :
    (setEdgeIndex [loopS1, loopS2]).map (fun e => (e.edgeIndex, e.siblingNum)) =
      [(1, 3), (3, 3)] := by
  decide

/-- Claim C3: after `filterEdge` keeps only e1 on the A→B→C chain, the working
sets hold exactly `{A, B}` and `{e1}`, yet the rerun `preprocessData` only
*appended* to the index: `vertexesMap` holds the old ids again
(`["A","B","C","A","B"]`), the adjacency still maps B→C through the removed
edge e2 (and holds e1 twice), and a subsequent `shortestPath(A, C)` traverses
the removed edge to the removed vertex instead of reporting C unreachable. -/
theorem filterEdge_stale_index_eval :
    stChainFiltered.vertexes.map (·.id) = ["A", "B"] ∧
    stChainFiltered.edges.map (·.id) = ["e1"] ∧
    stChainFiltered.vertexesMap = ["A", "B", "C", "A", "B"] ∧
    alistGet stChainFiltered.adjList 1 = some [(2, ["e2"])] ∧
    alistGet stChainFiltered.adjList 0 = some [(1, ["e1", "e1"])] ∧
    (shortestPath stChainFiltered "A" "C").1 =
      some ⟨[some "C", some "B", some "A"], [some "e2", some "e1"]⟩ := by
  decide

/-- Claim C4: on the two-component graph A→B, C→D, a fresh
`shortestPath(A, D)` returns the unreachable default `{[D], []}`, but the same
query issued after `shortestPath(C, D)` returns a different result — the model
yields `none` (the source throws a `TypeError` indexing
`adjList[0][3]`), because `bfs` clears `marker` but never clears `edgeTo`, so
the stale predecessor entry `edgeTo[D] = C` leaks into the second call. -/
theorem shortestPath_stale_edgeTo_eval :
    (shortestPath stTwoComp "A" "D").1 = some ⟨[some "D"], []⟩ ∧
    (shortestPath ((shortestPath stTwoComp "C" "D").2) "A" "D").1 = none := by
  decide

/-- Claim C5: after `filterVertex(() => true, isRaw = true)` and `resetData()`
on input `{A, B, e1}`, the working vertex values are *not* structurally equal
to the original input (preprocessing wrote `state: "normal"` into the shared
`this.data` elements), and mutating the first vertex obtained from the
working set changes the retained `this.data` snapshot — `resetData` installs
the snapshot's own object references as the working set. -/
theorem resetData_alias_eval :
    workVertexValues heapReset ≠ [vertexA, vertexB] ∧
    dataVertexValues heapMutated ≠ dataVertexValues heapReset := by
  decide

/-- Claim C6, counterexample: for the pure element predicate
`stateMissing` (true iff the record has no `state` field) on the loaded A→B
graph, raw-snapshot-mode `filterVertex` applied twice yields working sets
(empty) different from applying it once (A, B, e1) — the first raw call's
preprocessing wrote `state` into the shared snapshot elements, flipping the
predicate's verdict for the second call. -/
theorem filterVertex_raw_not_idempotent :
    ¬ (rawTwice.vertexes = rawOnce.vertexes ∧ rawTwice.edges = rawOnce.edges) := by
  decide

/-- Claim C8, counterexample: take edges f1(A→B) then f2(B→A) — one unordered
pair, canonical (first-encountered) direction A→B, so f2 is the edge whose
direction is *reversed* relative to the canonical one.  The claim's rule
("sweep inverted exactly when the canonical direction is reversed relative to
this edge") predicts sweeps `[claimSweep 1 2 false, claimSweep 2 2 true] =
[0, 0]`; the code computes `[1, 1]` — it inverts for f1 (labelDirection 1,
direction *matching* canonical), not for f2. -/
theorem onTickSweep_inversion_counterexample :
    (setEdgeIndex [edgeAB, edgeBA]).map
        (fun e => (e.edgeIndex, e.siblingNum, e.labelDirection)) =
      [(1, 2, 1), (2, 2, 0)] ∧
    onTickSweep 2 2 0 ≠ claimSweep 2 2 true := by
  refine ⟨by decide, ?_⟩
  norm_num [onTickSweep, claimSweep]

/-- Claim C9: `zoomTo` clamps.  Requesting a scale beyond a `scaleExtent`
bound produces a transform whose scale is exactly that bound, with
translations `x1 = cx − ((cx−x0)/k0)·s`, `y1 = cy − ((cy−y0)/k0)·s`; and the
same out-of-range request issued while the scale already sits at that bound
is a no-op leaving the transform unchanged. -/
theorem zoomTo_clamps (t : Transform) (ext : ℚ × ℚ) (cx cy scale : ℚ)
    (hext : ext.1 ≤ ext.2) (hk : t.k ≠ 0) :
    (scale > ext.2 →
      zoomTo t ext cx cy scale =
        ⟨ext.2, cx - (cx - t.x) / t.k * ext.2, cy - (cy - t.y) / t.k * ext.2⟩) ∧
    (scale < ext.1 →
      zoomTo t ext cx cy scale =
        ⟨ext.1, cx - (cx - t.x) / t.k * ext.1, cy - (cy - t.y) / t.k * ext.1⟩) ∧
    (scale > ext.2 → t.k = ext.2 → zoomTo t ext cx cy scale = t) ∧
    (scale < ext.1 → t.k = ext.1 → zoomTo t ext cx cy scale = t) := by
  have noopHi : scale > ext.2 → t.k = ext.2 → zoomTo t ext cx cy scale = t := by
    intro hs hk2
    simp only [zoomTo]
    rw [if_pos (Or.inl ⟨by linarith, hk2⟩)]
  have noopLo : scale < ext.1 → t.k = ext.1 → zoomTo t ext cx cy scale = t := by
    intro hs hk2
    simp only [zoomTo]
    rw [if_pos (Or.inr ⟨by linarith, hk2⟩)]
  refine ⟨?_, ?_, noopHi, noopLo⟩
  · intro hs
    by_cases hk2 : t.k = ext.2
    · rw [noopHi hs hk2, ← hk2, div_mul_cancel₀ _ hk, div_mul_cancel₀ _ hk,
        sub_sub_cancel, sub_sub_cancel]
    · have hnC : ¬ ((scale - t.k > 0 ∧ t.k = ext.2) ∨ (scale - t.k < 0 ∧ t.k = ext.1)) := by
        rintro (⟨h1, h2⟩ | ⟨h1, h2⟩)
        · exact hk2 h2
        · linarith
      simp only [zoomTo]
      rw [if_neg hnC, if_neg (not_lt.mpr (by linarith : ext.1 ≤ scale)), if_pos hs]
  · intro hs
    by_cases hk2 : t.k = ext.1
    · rw [noopLo hs hk2, ← hk2, div_mul_cancel₀ _ hk, div_mul_cancel₀ _ hk,
        sub_sub_cancel, sub_sub_cancel]
    · have hnC : ¬ ((scale - t.k > 0 ∧ t.k = ext.2) ∨ (scale - t.k < 0 ∧ t.k = ext.1)) := by
        rintro (⟨h1, h2⟩ | ⟨h1, h2⟩)
        · linarith
        · exact hk2 h2
      simp only [zoomTo]
      rw [if_neg hnC, if_pos hs]

/-- Witness for the zoom theorem: a concrete over-the-maximum request from
scale 1 on extent [1/2, 2] centered at (400, 300). -/
theorem zoomTo_clamps_witness :
    zoomTo ⟨1, 10, 20⟩ (1 / 2, 2) 400 300 5 =
      ⟨2, 400 - (400 - 10) / 1 * 2, 300 - (300 - 20) / 1 * 2⟩ :=
  (zoomTo_clamps ⟨1, 10, 20⟩ (1 / 2, 2) 400 300 5 (by norm_num) (by norm_num)).1
    (by norm_num)

/-- The single `forEach` of `radiationVertex`, rephrased: the accumulated
pools are the filtered outgoing edges' targets and ids, appended. -/
theorem radiationVertex_foldl (dId : String) (l : List Edge)
    (acc : List String × List String) :
    l.foldl
        (fun acc e =>
          if e.fromId == dId then (acc.1 ++ [e.toId], acc.2 ++ [e.id]) else acc)
        acc =
      (acc.1 ++ (l.filter fun e => e.fromId == dId).map (·.toId),
       acc.2 ++ (l.filter fun e => e.fromId == dId).map (·.id)) := by
  induction l generalizing acc with
  | nil => simp
  | cons e tl ih =>
    simp only [List.foldl_cons, List.filter_cons]
    by_cases h : (e.fromId == dId) = true
    · rw [if_pos h, if_pos h, ih]
      simp
    · rw [if_neg h, if_neg h, ih]

/-- Counting a target among the mapped outgoing endpoints equals counting
edges from `dId` to `tId`. -/
theorem count_outgoing_to (dId tId : String) (l : List Edge) :
    List.count (some tId) ((l.filter fun e => e.fromId == dId).map fun e => some e.toId)
      = (l.filter fun e => e.fromId == dId && e.toId == tId).length := by
  induction l with
  | nil => simp
  | cons e tl ih =>
    by_cases h1 : e.fromId = dId
    · by_cases h2 : e.toId = tId
      · simp [List.filter_cons, h1, h2, List.count_cons, ih]
      · simp [List.filter_cons, h1, h2, List.count_cons, ih]
    · simp [List.filter_cons, h1, ih]

/-- The fold inside `dedupFirst` preserves freedom from duplicates. -/
theorem dedupFirst_foldl_nodup (l : List String) :
    ∀ acc : List String, acc.Nodup →
      (l.foldl (fun acc a => if acc.contains a then acc else acc ++ [a]) acc).Nodup := by
  induction l with
  | nil => intro acc h; simpa using h
  | cons a tl ih =>
    intro acc h
    simp only [List.foldl_cons]
    by_cases hc : acc.contains a = true
    · rw [if_pos hc]
      exact ih acc h
    · rw [if_neg hc]
      refine ih (acc ++ [a]) ?_
      have ha : a ∉ acc := by simpa using hc
      simp [List.nodup_append, h, ha]

/-- `dedupFirst` produces a duplicate-free list. -/
theorem dedupFirst_nodup (l : List String) : (dedupFirst l).Nodup :=
  dedupFirst_foldl_nodup l [] List.nodup_nil

/-- Claim C10: `radiationVertex(v)` does not de-duplicate — for any vertex id
and any target id, the occurrences of the target after `v`'s own id equal the
number of outgoing parallel edges to it (so k parallel edges ⇒ k copies); its
edgeIds list the outgoing edges in working-set encounter order; and
`relationVertex(v)` returns de-duplicated vertexIds. -/
theorem radiation_relation_queries (st : ForceState) (dId tId : String) :
    List.count (some tId) (radiationVertex st dId).vertexIds.tail
      = (st.edges.filter fun e => e.fromId == dId && e.toId == tId).length ∧
    (radiationVertex st dId).edgeIds
      = (st.edges.filter fun e => e.fromId == dId).map (fun e => some e.id) ∧
    (relationVertex st dId).vertexIds.Nodup := by
  refine ⟨?_, ?_, ?_⟩
  · have h := count_outgoing_to dId tId st.edges
    simp only [radiationVertex, radiationVertex_foldl]
    simpa [Function.comp] using h
  · simp only [radiationVertex, radiationVertex_foldl]
    simp [Function.comp, List.map_map]
  · exact (dedupFirst_nodup _).map (Option.some_injective String)

/-- Claim C8, amended: for `siblingNum > 1` and `edgeIndex ≠ middleIndex =
(siblingNum+1)/2` the arc radius equals the spec's formula
(euclidean distance over `ln(|edgeIndex−middleIndex|·0.7+1) + 1/(10·edgeIndex²)`);
the middle edge has radius 0; the sweep flag is `edgeIndex > middleIndex`
inverted exactly when `labelDirection = 1` — which `setEdgeIndex` assigns
when the edge's `_from` *matches* the pair's first-encountered direction (the
claim had the inversion condition backwards); and for two edges both A→B with
edgeIndex 1 and 2 the two arcs indeed get different sweep flags (1 and 0). -/
theorem onTick_geometry_amended :
    (∀ (sqrtQ logQ : ℚ → ℚ) (dx dy edgeIndex siblingNum : ℚ),
      siblingNum > 1 → edgeIndex ≠ (siblingNum + 1) / 2 →
      onTickRadius sqrtQ logQ dx dy edgeIndex siblingNum =
        specArcRadius sqrtQ logQ dx dy edgeIndex siblingNum) ∧
    (∀ (sqrtQ logQ : ℚ → ℚ) (dx dy siblingNum : ℚ),
      siblingNum > 1 →
      onTickRadius sqrtQ logQ dx dy ((siblingNum + 1) / 2) siblingNum = 0) ∧
    (∀ edgeIndex siblingNum : ℚ,
      onTickSweep edgeIndex siblingNum 1 = 1 - onTickSweep edgeIndex siblingNum 0) ∧
    ((setEdgeIndex [edgeAB, edgeBA]).map (·.labelDirection) = [1, 0] ∧
      (setEdgeIndex [edgeAB, edgeABbis]).map
          (fun e => (e.edgeIndex, e.siblingNum, e.labelDirection)) =
        [(1, 2, 1), (2, 2, 1)] ∧
      onTickSweep 1 2 1 = 1 ∧ onTickSweep 2 2 1 = 0) := by
  refine ⟨?_, ?_, ?_, by decide, by decide, ?_, ?_⟩
  · intro sqrtQ logQ dx dy edgeIndex siblingNum hs hne
    simp [onTickRadius, specArcRadius, hs, hne]
  · intro sqrtQ logQ dx dy siblingNum hs
    simp [onTickRadius, hs]
  · intro edgeIndex siblingNum
    simp [onTickSweep]
  · norm_num [onTickSweep]
  · norm_num [onTickSweep]

/-- Witness for the amended geometry theorem: the radius clauses evaluated at
`sqrt = log = id`, positions giving `dx = 3, dy = 4`, and the sibling pair
`edgeIndex = 1, siblingNum = 2` (middle index 3/2). -/
theorem onTick_geometry_amended_witness :
    onTickRadius id id 3 4 1 2 = specArcRadius id id 3 4 1 2 ∧
    onTickRadius id id 3 4 ((2 + 1) / 2) 2 = 0 :=
  ⟨onTick_geometry_amended.1 id id 3 4 1 2 (by norm_num) (by norm_num),
   onTick_geometry_amended.2.1 id id 3 4 2 (by norm_num)⟩

/-- A binding present in an association list is visible through `alistGet`
(with possibly another value for the key, if shadowed). -/
theorem mem_alistGet_isSome {α β : Type} [BEq α] [LawfulBEq α]
    {m : List (α × β)} {k : α} {v : β} (h : (k, v) ∈ m) :
    ∃ w, alistGet m k = some w := by
  induction m with
  | nil => cases h
  | cons kv tl ih =>
    obtain ⟨k0, v0⟩ := kv
    by_cases hk : (k0 == k) = true
    · exact ⟨v0, by simp [alistGet, hk]⟩
    · rcases List.mem_cons.mp h with hh | ht
      · cases hh
        simp at hk
      · obtain ⟨w, hw⟩ := ih ht
        exact ⟨w, by simp [alistGet, hk, hw]⟩

/-- `alistSet` introduces at most the written key: any key readable after the
write was either the written one or readable before. -/
theorem alistGet_alistSet_cases {α β : Type} [BEq α] [LawfulBEq α]
    (m : List (α × β)) (k k' : α) (v w : β)
    (h : alistGet (alistSet m k v) k' = some w) :
    k' = k ∨ alistGet m k' = some w := by
  induction m with
  | nil =>
    simp only [alistSet, alistGet] at h
    split at h
    · exact Or.inl (by rename_i hk; exact (eq_of_beq hk).symm)
    · cases h
  | cons kv tl ih =>
    obtain ⟨k0, v0⟩ := kv
    by_cases h0 : (k0 == k) = true
    · simp only [alistSet, h0, if_true] at h
      simp only [alistGet] at h ⊢
      split at h
      · exact Or.inl (by rename_i hk; exact ((eq_of_beq hk).symm.trans (eq_of_beq h0)).symm ▸ rfl)
      · rename_i hk
        simp only [hk]
        exact Or.inr h
    · simp only [alistSet, h0, if_false] at h
      simp only [alistGet] at h ⊢
      split at h
      · rename_i hk
        simp only [hk]
        exact Or.inr h
      · rename_i hk
        simp only [hk]
        exact ih h

/-- The `forEach` over the neighbours of a dequeued, reachable `item`
preserves the BFS invariant: every queued ordinal and every key written to
`edgeTo` is reachable from the start ordinal. -/
theorem bfsScan_inv (adj : List (Int × List (Int × List String))) (start item : Int)
    (inner : List (Int × List String))
    (hsucc : ∀ kv ∈ inner, Reach adj start kv.1) :
    ∀ acc : List Int × List Int × List (Int × Int),
      (∀ q ∈ acc.2.1, Reach adj start q) →
      (∀ k v, alistGet acc.2.2 k = some v → Reach adj start k) →
      (∀ q ∈ (bfsScan item inner acc).2.1, Reach adj start q) ∧
      (∀ k v, alistGet (bfsScan item inner acc).2.2 k = some v → Reach adj start k) := by
  induction inner with
  | nil => intro acc hq he; exact ⟨hq, he⟩
  | cons kv tl ih =>
    intro acc hq he
    obtain ⟨marker, queue, edgeTo⟩ := acc
    have hkv : Reach adj start kv.1 := hsucc kv (List.mem_cons_self kv tl)
    have hsucc' : ∀ kv ∈ tl, Reach adj start kv.1 :=
      fun x hx => hsucc x (List.mem_cons_of_mem kv hx)
    simp only [bfsScan, List.foldl_cons]
    by_cases hm : marker.contains kv.1 = true
    · simp only [hm, if_true]
      exact ih hsucc' (marker, queue, edgeTo) hq he
    · simp only [hm, if_false]
      refine ih hsucc' (kv.1 :: marker, queue ++ [kv.1], alistSet edgeTo kv.1 item) ?_ ?_
      · intro q hq'
        rcases List.mem_append.mp hq' with h | h
        · exact hq q h
        · rw [List.mem_singleton.mp h]
          exact hkv
      · intro k v hkv'
        rcases alistGet_alistSet_cases edgeTo kv.1 k item v hkv' with h | h
        · rw [h]
          exact hkv
        · exact he k v h

/-- The BFS queue loop preserves the invariant: every key of the resulting
`edgeTo` store is reachable from the start, provided every queued ordinal is
and every pre-existing key is. -/
theorem bfsAux_inv (adj : List (Int × List (Int × List String))) (start : Int) :
    ∀ (fuel : Nat) (marker queue : List Int) (edgeTo : List (Int × Int)),
      (∀ q ∈ queue, Reach adj start q) →
      (∀ k v, alistGet edgeTo k = some v → Reach adj start k) →
      ∀ k v, alistGet (bfsAux adj fuel marker queue edgeTo) k = some v →
        Reach adj start k := by
  intro fuel
  induction fuel with
  | zero => intro marker queue edgeTo _ he k v h; exact he k v h
  | succ fuel ih =>
    intro marker queue edgeTo hq he k v h
    match queue with
    | [] => exact he k v (by simpa [bfsAux] using h)
    | item :: rest =>
      have hitem : Reach adj start item := hq item (List.mem_cons_self item rest)
      have hrest : ∀ q ∈ rest, Reach adj start q :=
        fun q hq' => hq q (List.mem_cons_of_mem item hq')
      rw [bfsAux] at h
      cases hadj : alistGet adj item with
      | none =>
        rw [hadj] at h
        exact ih marker rest edgeTo hrest he k v h
      | some inner =>
        rw [hadj] at h
        have hsucc : ∀ kv ∈ inner, Reach adj start kv.1 := by
          intro kv hkv
          obtain ⟨w, hw⟩ := mem_alistGet_isSome hkv
          exact hitem.tail ⟨inner, w, hadj, hw⟩
        obtain ⟨hq', he'⟩ :=
          bfsScan_inv adj start item inner hsucc (marker, rest, edgeTo) hrest he
        exact ih _ _ _ hq' he' k v h

/-- Claim C7, counterexample: "never an error" does not hold of every state
the model can reach.  On the two-component graph A→B, C→D, after a prior
`shortestPath(C, D)` call, the query `shortestPath(A, D)` — whose target D is
*unreachable* from A over the adjacency index, as the second conjunct proves
— throws a `TypeError` (model: `none`) instead of returning the default
`{vertexIds:["D"], edgeIds:[]}`, because the stale `edgeTo[D]` entry survives
into the new call. -/
theorem shortestPath_unreachable_throws :
    (shortestPath ((shortestPath stTwoComp "C" "D").2) "A" "D").1 = none ∧
    ¬ Reach ((shortestPath stTwoComp "C" "D").2).adjList
        (indexOfStr ((shortestPath stTwoComp "C" "D").2).vertexesMap "A")
        (indexOfStr ((shortestPath stTwoComp "C" "D").2).vertexesMap "D") := by
  constructor
  · decide
  · intro h
    have hadj : ((shortestPath stTwoComp "C" "D").2).adjList =
        [(0, [(1, ["e1"])]), (2, [(3, ["g2"])])] := by decide
    have h0 : indexOfStr ((shortestPath stTwoComp "C" "D").2).vertexesMap "A" = 0 := by
      decide
    have h3 : indexOfStr ((shortestPath stTwoComp "C" "D").2).vertexesMap "D" = 3 := by
      decide
    rw [h0, h3, hadj] at h
    rcases Relation.ReflTransGen.cases_head h with heq | ⟨b, hstep, hrest⟩
    · exact absurd heq (by decide)
    · obtain ⟨inner, l, h1, h2⟩ := hstep
      have hinner : inner = [(1, ["e1"])] :=
        (Option.some.inj ((by decide :
          alistGet [((0 : Int), [((1 : Int), ["e1"])]), (2, [(3, ["g2"])])] 0 =
            some [(1, ["e1"])]).symm.trans h1)).symm
      subst hinner
      have hb : b = 1 := by
        simp only [alistGet] at h2
        split at h2
        · rename_i hbeq
          exact (eq_of_beq hbeq).symm
        · cases h2
      subst hb
      rcases Relation.ReflTransGen.cases_head hrest with heq2 | ⟨c, hstep2, _⟩
      · exact absurd heq2 (by decide)
      · obtain ⟨inner2, l2, h1', _⟩ := hstep2
        rw [show alistGet [((0 : Int), [((1 : Int), ["e1"])]), (2, [(3, ["g2"])])]
            (1 : Int) = none from by decide] at h1'
        cases h1'

/-- Claim C7, amended: whenever the target equals the source or is
unreachable from it over the adjacency index (which covers ids unknown to the
model, whose `indexOf` is −1 and which the index never mentions), a
`shortestPath` call on a state with fresh (empty) predecessor storage — e.g.
the first query after preprocessing — returns the default
`{vertexIds: [targetId], edgeIds: []}`, never an error. -/
theorem shortestPath_default_on_unreachable (st : ForceState) (sourceId targetId : String)
    (hfresh : st.edgeTo = [])
    (h : indexOfStr st.vertexesMap sourceId = indexOfStr st.vertexesMap targetId ∨
      ¬ Reach st.adjList (indexOfStr st.vertexesMap sourceId)
          (indexOfStr st.vertexesMap targetId)) :
    (shortestPath st sourceId targetId).1 = some ⟨[some targetId], []⟩ := by
  rcases h with heq | hunreach
  · have hpath :
        pathTo (bfs st (indexOfStr st.vertexesMap sourceId))
          ((bfs st (indexOfStr st.vertexesMap sourceId)).length + 1)
          (indexOfStr st.vertexesMap sourceId) (indexOfStr st.vertexesMap targetId) =
          [indexOfStr st.vertexesMap sourceId] := by
      rw [pathTo, if_neg (by simp [heq])]
    simp [shortestPath, hpath]
  · have ht : alistGet (bfs st (indexOfStr st.vertexesMap sourceId))
        (indexOfStr st.vertexesMap targetId) = none := by
      cases hget : alistGet (bfs st (indexOfStr st.vertexesMap sourceId))
          (indexOfStr st.vertexesMap targetId) with
      | none => rfl
      | some v =>
        refine absurd ?_ hunreach
        refine bfsAux_inv st.adjList (indexOfStr st.vertexesMap sourceId)
          (st.vertexesMap.length + 1) [indexOfStr st.vertexesMap sourceId]
          [indexOfStr st.vertexesMap sourceId] st.edgeTo ?_ ?_ _ v ?_
        · intro q hq
          rw [List.mem_singleton.mp hq]
          exact Relation.ReflTransGen.refl
        · intro k v hk
          rw [hfresh] at hk
          cases hk
        · exact hget
    have htf : indexOfStr st.vertexesMap targetId ≠ indexOfStr st.vertexesMap sourceId := by
      intro hc
      exact hunreach (hc ▸ Relation.ReflTransGen.refl)
    have hpath :
        pathTo (bfs st (indexOfStr st.vertexesMap sourceId))
          ((bfs st (indexOfStr st.vertexesMap sourceId)).length + 1)
          (indexOfStr st.vertexesMap sourceId) (indexOfStr st.vertexesMap targetId) =
          [indexOfStr st.vertexesMap sourceId] := by
      rw [pathTo, if_pos htf, ht]
    simp [shortestPath, hpath]

/-- Witness for the default-result theorem: `shortestPath(B, B)` on the
preprocessed A→B→C chain (equal source and target; the chain's `edgeTo` store
is empty right after preprocessing). -/
theorem shortestPath_default_witness :
    (shortestPath stChain "B" "B").1 = some ⟨[some "B"], []⟩ :=
  shortestPath_default_on_unreachable stChain "B" "B" (by decide) (Or.inl (by decide))

/-- `v.state = v.state || 'normal'` does nothing to a vertex that already has
a state. -/
theorem normVertex_of_isSome {v : Vertex} (h : v.state.isSome) : normVertex v = v := by
  obtain ⟨i, s⟩ := v
  cases s with
  | none => simp at h
  | some s => simp [normVertex]

/-- State normalisation of a vertex is idempotent. -/
theorem normVertex_idem (v : Vertex) : normVertex (normVertex v) = normVertex v := by
  simp [normVertex]

/-- State normalisation of an edge is idempotent. -/
theorem normEdge_idem (e : Edge) : normEdge (normEdge e) = normEdge e := by
  simp [normEdge]

/-- `e.state = e.state || 'normal'` does nothing to an edge that already has
a state. -/
theorem normEdge_of_isSome {e : Edge} (h : e.state.isSome) : normEdge e = e := by
  obtain ⟨i, f, t, s, a, b, c⟩ := e
  cases s with
  | none => simp at h
  | some s => simp [normEdge]

/-- Mapping state normalisation over fully-loaded vertices is the identity. -/
theorem map_normVertex_of_loaded {l : List Vertex} (h : ∀ v ∈ l, v.state.isSome) :
    l.map normVertex = l := by
  rw [List.map_congr_left fun v hv => normVertex_of_isSome (h v hv)]
  exact l.map_id

/-- Mapping state normalisation over fully-loaded edges is the identity. -/
theorem map_normEdge_of_loaded {l : List Edge} (h : ∀ e ∈ l, e.state.isSome) :
    l.map normEdge = l := by
  rw [List.map_congr_left fun e he => normEdge_of_isSome (h e he)]
  exact l.map_id

/-- Double state normalisation of a vertex list collapses. -/
theorem map_normVertex_idem (l : List Vertex) :
    (l.map normVertex).map normVertex = l.map normVertex := by
  rw [List.map_map]
  exact List.map_congr_left fun v _ => normVertex_idem v

/-- Membership in the endpoint pool accumulated by `filterVertex`'s edge
pass. -/
theorem mem_pool_foldl (x : String) :
    ∀ (l : List Edge) (acc : List String),
      (x ∈ l.foldl (fun acc e => acc ++ [e.toId, e.fromId]) acc ↔
        x ∈ acc ∨ ∃ e ∈ l, x = e.toId ∨ x = e.fromId) := by
  intro l
  induction l with
  | nil => intro acc; simp
  | cons e tl ih =>
    intro acc
    simp only [List.foldl_cons]
    rw [ih]
    constructor
    · rintro (hx | hx)
      · rcases List.mem_append.mp hx with h | h
        · exact Or.inl h
        · rcases List.mem_cons.mp h with h | h
          · exact Or.inr ⟨e, List.mem_cons_self e tl, Or.inl h⟩
          · exact Or.inr ⟨e, List.mem_cons_self e tl,
              Or.inr (List.mem_singleton.mp h)⟩
      · obtain ⟨e', he', hor⟩ := hx
        exact Or.inr ⟨e', List.mem_cons_of_mem e he', hor⟩
    · rintro (hx | ⟨e', he', hor⟩)
      · exact Or.inl (List.mem_append.mpr (Or.inl hx))
      · rcases List.mem_cons.mp he' with h | h
        · subst h
          rcases hor with h | h
          · exact Or.inl (List.mem_append.mpr (Or.inr (by simp [h])))
          · exact Or.inl (List.mem_append.mpr (Or.inr (by simp [h])))
        · exact Or.inr ⟨e', h, hor⟩

/-- Membership through the de-duplicating fold. -/
theorem mem_dedupFirst_foldl (x : String) :
    ∀ (l : List String) (acc : List String),
      (x ∈ l.foldl (fun acc a => if acc.contains a then acc else acc ++ [a]) acc ↔
        x ∈ acc ∨ x ∈ l) := by
  intro l
  induction l with
  | nil => intro acc; simp
  | cons a tl ih =>
    intro acc
    simp only [List.foldl_cons]
    by_cases hc : acc.contains a = true
    · rw [if_pos hc, ih]
      have ha : a ∈ acc := by simpa using hc
      constructor
      · rintro (h | h)
        · exact Or.inl h
        · exact Or.inr (List.mem_cons_of_mem a h)
      · rintro (h | h)
        · exact Or.inl h
        · rcases List.mem_cons.mp h with h | h
          · exact Or.inl (h ▸ ha)
          · exact Or.inr h
    · rw [if_neg hc, ih]
      constructor
      · rintro (h | h)
        · rcases List.mem_append.mp h with h | h
          · exact Or.inl h
          · exact Or.inr (List.mem_cons.mpr (Or.inl (List.mem_singleton.mp h)))
        · exact Or.inr (List.mem_cons_of_mem a h)
      · rintro (h | h)
        · exact Or.inl (List.mem_append.mpr (Or.inl h))
        · rcases List.mem_cons.mp h with h | h
          · exact Or.inl (List.mem_append.mpr (Or.inr (by simp [h])))
          · exact Or.inr h

/-- `dedupFirst` preserves membership. -/
theorem mem_dedupFirst (x : String) (l : List String) : x ∈ dedupFirst l ↔ x ∈ l := by
  rw [dedupFirst, mem_dedupFirst_foldl]
  simp

/-- Membership in the vertex-id pool of a kept-edge list: exactly the
endpoints of its edges. -/
theorem mem_vertexIdsOfKeptV (x : String) (l : List Edge) :
    x ∈ vertexIdsOfKeptV l ↔ ∃ e ∈ l, x = e.toId ∨ x = e.fromId := by
  rw [vertexIdsOfKeptV, mem_dedupFirst, mem_pool_foldl]
  simp

/-- Two id lists with the same members give the same `contains` verdicts. -/
theorem contains_congr_of_mem_iff {a b : List String}
    (h : ∀ y, y ∈ a ↔ y ∈ b) (x : String) : a.contains x = b.contains x := by
  rw [Bool.eq_iff_iff]
  constructor
  · intro hx
    have : x ∈ a := by simpa using hx
    simpa using (h x).mp this
  · intro hx
    have : x ∈ b := by simpa using hx
    simpa using (h x).mpr this

/-- The first `setEdgeIndex` pass is determined by the edges' identity,
endpoint and state data (its input `edgeIndex`/`siblingNum`/`labelDirection`
fields are dead), and it only writes `edgeIndex`. -/
theorem setEdgeIndexPass1_congr :
    ∀ (l₁ l₂ : List Edge) (maps : EdgeMaps),
      l₁.map (fun e => (e.id, e.fromId, e.toId, e.state)) =
        l₂.map (fun e => (e.id, e.fromId, e.toId, e.state)) →
      (setEdgeIndexPass1 maps l₁).2 = (setEdgeIndexPass1 maps l₂).2 ∧
        (setEdgeIndexPass1 maps l₁).1.map
            (fun e => (e.id, e.fromId, e.toId, e.state, e.edgeIndex)) =
          (setEdgeIndexPass1 maps l₂).1.map
            (fun e => (e.id, e.fromId, e.toId, e.state, e.edgeIndex)) := by
  intro l₁
  induction l₁ with
  | nil =>
    intro l₂ maps h
    have : l₂ = [] := by simpa using h.symm
    subst this
    exact ⟨rfl, rfl⟩
  | cons e₁ t₁ ih =>
    intro l₂ maps h
    cases l₂ with
    | nil => simp at h
    | cons e₂ t₂ =>
      obtain ⟨i₁, f₁, o₁, s₁, a₁, b₁, c₁⟩ := e₁
      obtain ⟨i₂, f₂, o₂, s₂, a₂, b₂, c₂⟩ := e₂
      simp only [List.map_cons, List.cons.injEq, Prod.mk.injEq] at h
      obtain ⟨⟨h1, h2, h3, h4⟩, htail⟩ := h
      subst h1; subst h2; subst h3; subst h4
      simp only [setEdgeIndexPass1, List.map_cons]
      obtain ⟨hmaps, hlist⟩ := ih t₂ _ htail
      exact ⟨hmaps, by simp [hlist]⟩

/-- The first pass leaves identity, endpoints and state untouched. -/
theorem setEdgeIndexPass1_skel :
    ∀ (l : List Edge) (maps : EdgeMaps),
      (setEdgeIndexPass1 maps l).1.map (fun e => (e.id, e.fromId, e.toId, e.state)) =
        l.map (fun e => (e.id, e.fromId, e.toId, e.state)) := by
  intro l
  induction l with
  | nil => intro maps; rfl
  | cons e tl ih =>
    intro maps
    simp only [setEdgeIndexPass1, List.map_cons]
    simp [ih]

/-- The second `setEdgeIndex` pass is determined by the edges' identity,
endpoint, state and `edgeIndex` data. -/
theorem setEdgeIndexPass2_congr (m : EdgeMaps) :
    ∀ a b : List Edge,
      a.map (fun e => (e.id, e.fromId, e.toId, e.state, e.edgeIndex)) =
        b.map (fun e => (e.id, e.fromId, e.toId, e.state, e.edgeIndex)) →
      a.map (fun e =>
          { e with
            siblingNum := numGet m.num (e.fromId ++ e.toId),
            labelDirection :=
              if alistGet m.dir (e.fromId ++ e.toId) == some e.fromId then 1 else 0 }) =
        b.map (fun e =>
          { e with
            siblingNum := numGet m.num (e.fromId ++ e.toId),
            labelDirection :=
              if alistGet m.dir (e.fromId ++ e.toId) == some e.fromId then 1 else 0 }) := by
  intro a
  induction a with
  | nil =>
    intro b h
    have : b = [] := by simpa using h.symm
    subst this
    rfl
  | cons e₁ t₁ ih =>
    intro b h
    cases b with
    | nil => simp at h
    | cons e₂ t₂ =>
      obtain ⟨i₁, f₁, o₁, s₁, a₁, b₁, c₁⟩ := e₁
      obtain ⟨i₂, f₂, o₂, s₂, a₂, b₂, c₂⟩ := e₂
      simp only [List.map_cons, List.cons.injEq, Prod.mk.injEq] at h
      obtain ⟨⟨h1, h2, h3, h4, h5⟩, htail⟩ := h
      subst h1; subst h2; subst h3; subst h4; subst h5
      simp only [List.map_cons, List.cons.injEq]
      simpa using ih t₂ htail

/-- `setEdgeIndex` is determined by the edges' identity, endpoint and state
data: its three output fields are computed afresh and everything else is
copied. -/
theorem setEdgeIndex_congr (l₁ l₂ : List Edge)
    (h : l₁.map (fun e => (e.id, e.fromId, e.toId, e.state)) =
      l₂.map (fun e => (e.id, e.fromId, e.toId, e.state))) :
    setEdgeIndex l₁ = setEdgeIndex l₂ := by
  obtain ⟨hm, hl⟩ := setEdgeIndexPass1_congr l₁ l₂ ⟨[], []⟩ h
  simp only [setEdgeIndex]
  rw [hm]
  exact setEdgeIndexPass2_congr _ _ _ hl

/-- `setEdgeIndex` never writes identity, endpoints or state. -/
theorem setEdgeIndex_skel (l : List Edge) :
    (setEdgeIndex l).map (fun e => (e.id, e.fromId, e.toId, e.state)) =
      l.map (fun e => (e.id, e.fromId, e.toId, e.state)) := by
  simp only [setEdgeIndex]
  rw [List.map_map]
  have hcomp :
      ((fun e : Edge => (e.id, e.fromId, e.toId, e.state)) ∘ fun e =>
        { e with
          siblingNum :=
            numGet (setEdgeIndexPass1 ⟨[], []⟩ l).2.num (e.fromId ++ e.toId),
          labelDirection :=
            if alistGet (setEdgeIndexPass1 ⟨[], []⟩ l).2.dir (e.fromId ++ e.toId) ==
                some e.fromId then 1 else 0 }) =
        fun e : Edge => (e.id, e.fromId, e.toId, e.state) := rfl
  rw [hcomp]
  exact setEdgeIndexPass1_skel l _

/-- Applying `setEdgeIndex` to its own output changes nothing. -/
theorem setEdgeIndex_idem (l : List Edge) :
    setEdgeIndex (setEdgeIndex l) = setEdgeIndex l :=
  setEdgeIndex_congr _ _ (setEdgeIndex_skel l)

/-- `setEdgeIndex` preserves the endpoint pairs. -/
theorem setEdgeIndex_pairs (l : List Edge) :
    (setEdgeIndex l).map (fun e => (e.fromId, e.toId)) =
      l.map (fun e => (e.fromId, e.toId)) := by
  have h := congrArg
    (List.map fun t : String × String × String × Option String => (t.2.1, t.2.2.1))
    (setEdgeIndex_skel l)
  simpa [List.map_map, Function.comp] using h

/-- `setEdgeIndex` preserves the states, hence keeps loaded edges loaded. -/
theorem setEdgeIndex_state_isSome {l : List Edge} (h : ∀ e ∈ l, e.state.isSome) :
    ∀ e ∈ setEdgeIndex l, e.state.isSome := by
  intro e he
  have hmem : (e.id, e.fromId, e.toId, e.state) ∈
      (setEdgeIndex l).map (fun e => (e.id, e.fromId, e.toId, e.state)) :=
    List.mem_map_of_mem _ he
  rw [setEdgeIndex_skel] at hmem
  obtain ⟨e', he', heq⟩ := List.mem_map.mp hmem
  have hstate : e'.state = e.state := by
    simpa using congrArg (fun t : String × String × String × Option String => t.2.2.2) heq
  exact hstate ▸ h e' he'

/-- Normalising the states of both sides preserves skeleton equality. -/
theorem map_normEdge_skel_congr {a b : List Edge}
    (h : a.map (fun e => (e.id, e.fromId, e.toId, e.state)) =
      b.map (fun e => (e.id, e.fromId, e.toId, e.state))) :
    (a.map normEdge).map (fun e => (e.id, e.fromId, e.toId, e.state)) =
      (b.map normEdge).map (fun e => (e.id, e.fromId, e.toId, e.state)) := by
  have key : ∀ l : List Edge,
      (l.map normEdge).map (fun e => (e.id, e.fromId, e.toId, e.state)) =
        (l.map (fun e => (e.id, e.fromId, e.toId, e.state))).map
          (fun t => (t.1, t.2.1, t.2.2.1, some (t.2.2.2.getD "normal"))) := by
    intro l
    rw [List.map_map, List.map_map]
    rfl
  rw [key, key, h]

/-- Pairs of normalised edges are the original pairs. -/
theorem map_normEdge_pairs (l : List Edge) :
    (l.map normEdge).map (fun e => (e.fromId, e.toId)) =
      l.map (fun e => (e.fromId, e.toId)) := by
  rw [List.map_map]
  rfl

/-- The processed working edge list of a filter pass keeps the kept edges'
endpoint pairs. -/
theorem processed_pairs (l : List Edge) :
    (setEdgeIndex (l.map normEdge)).map (fun e => (e.fromId, e.toId)) =
      l.map (fun e => (e.fromId, e.toId)) := by
  rw [setEdgeIndex_pairs, map_normEdge_pairs]

/-- Endpoint pools only depend on the endpoint pairs (one direction). -/
theorem mem_pool_mono {l₁ l₂ : List Edge}
    (h : l₁.map (fun e => (e.fromId, e.toId)) = l₂.map (fun e => (e.fromId, e.toId)))
    (x : String) (hx : x ∈ vertexIdsOfKeptV l₁) : x ∈ vertexIdsOfKeptV l₂ := by
  rw [mem_vertexIdsOfKeptV] at hx ⊢
  obtain ⟨e, he, hor⟩ := hx
  have hmem : (e.fromId, e.toId) ∈ l₂.map (fun e => (e.fromId, e.toId)) :=
    h ▸ List.mem_map_of_mem _ he
  obtain ⟨e', he', hpr⟩ := List.mem_map.mp hmem
  have h1 : e'.fromId = e.fromId := congrArg Prod.fst hpr
  have h2 : e'.toId = e.toId := congrArg Prod.snd hpr
  rcases hor with hor | hor
  · exact ⟨e', he', Or.inl (by rw [hor, ← h2])⟩
  · exact ⟨e', he', Or.inr (by rw [hor, ← h1])⟩

/-- Endpoint pools only depend on the endpoint pairs. -/
theorem mem_pool_congr {l₁ l₂ : List Edge}
    (h : l₁.map (fun e => (e.fromId, e.toId)) = l₂.map (fun e => (e.fromId, e.toId)))
    (x : String) : x ∈ vertexIdsOfKeptV l₁ ↔ x ∈ vertexIdsOfKeptV l₂ :=
  ⟨mem_pool_mono h x, mem_pool_mono h.symm x⟩

/-- Working-set-mode `filterVertex` is idempotent on a loaded graph: the
second pass keeps every edge and every vertex the first pass produced. -/
theorem filterVertex_nonraw_idem (p : Vertex → Bool) (st : ForceState)
    (hload : ∀ v ∈ st.vertexes, v.state.isSome) :
    (filterVertex p false (filterVertex p false st)).vertexes
        = (filterVertex p false st).vertexes ∧
      (filterVertex p false (filterVertex p false st)).edges
        = (filterVertex p false st).edges := by
  have loadedV1 : ∀ v ∈ keptVertexes p st.vertexes st.edges, v.state.isSome := by
    intro v hv
    simp only [keptVertexes] at hv
    exact hload v (List.mem_filter.mp hv).1
  have hv1 : (keptVertexes p st.vertexes st.edges).map normVertex
      = keptVertexes p st.vertexes st.edges := map_normVertex_of_loaded loadedV1
  have loadedNorm : ∀ e ∈ (keptEdges p st.vertexes st.edges).map normEdge, e.state.isSome := by
    intro e he
    obtain ⟨e', _, rfl⟩ := List.mem_map.mp he
    simp [normEdge]
  have loadedP1 : ∀ e ∈ setEdgeIndex ((keptEdges p st.vertexes st.edges).map normEdge),
      e.state.isSome := setEdgeIndex_state_isSome loadedNorm
  have hpairs : (setEdgeIndex ((keptEdges p st.vertexes st.edges).map normEdge)).map
        (fun e => (e.fromId, e.toId))
      = (keptEdges p st.vertexes st.edges).map (fun e => (e.fromId, e.toId)) :=
    processed_pairs _
  -- Second pass keeps every processed edge.
  have hA : keptEdges p (keptVertexes p st.vertexes st.edges)
        (setEdgeIndex ((keptEdges p st.vertexes st.edges).map normEdge))
      = setEdgeIndex ((keptEdges p st.vertexes st.edges).map normEdge) := by
    simp only [keptEdges]
    rw [List.filter_eq_self]
    intro e he
    have hmem : (e.fromId, e.toId) ∈ (keptEdges p st.vertexes st.edges).map
        (fun e => (e.fromId, e.toId)) := hpairs ▸ List.mem_map_of_mem _ he
    obtain ⟨e', he', hpr⟩ := List.mem_map.mp hmem
    have hfrom : e'.fromId = e.fromId := congrArg Prod.fst hpr
    have hto : e'.toId = e.toId := congrArg Prod.snd hpr
    have htouch : touchesFilterIds ((st.vertexes.filter p).map (·.id)) e' = true := by
      simp only [keptEdges] at he'
      exact List.of_mem_filter he'
    rw [touchesFilterIds, Bool.or_eq_true] at htouch
    have step : ∀ y : String, (y = e'.toId ∨ y = e'.fromId) →
        ((st.vertexes.filter p).map (·.id)).contains y = true →
        (((keptVertexes p st.vertexes st.edges).filter p).map (·.id)).contains y = true := by
      intro y hy hcy
      have : y ∈ (st.vertexes.filter p).map (·.id) := by simpa using hcy
      obtain ⟨w, hw, hwid⟩ := List.mem_map.mp this
      have hwV : w ∈ st.vertexes := (List.mem_filter.mp hw).1
      have hpw : p w = true := (List.mem_filter.mp hw).2
      have hwin : w.id ∈ vertexIdsOfKeptV (keptEdges p st.vertexes st.edges) := by
        rw [mem_vertexIdsOfKeptV]
        refine ⟨e', he', ?_⟩
        rw [hwid]
        exact hy
      have hwV1 : w ∈ keptVertexes p st.vertexes st.edges := by
        simp only [keptVertexes]
        exact List.mem_filter.mpr ⟨hwV, by simpa using hwin⟩
      have : y ∈ ((keptVertexes p st.vertexes st.edges).filter p).map (·.id) := by
        rw [← hwid]
        exact List.mem_map_of_mem _ (List.mem_filter.mpr ⟨hwV1, hpw⟩)
      simpa using this
    rw [touchesFilterIds, Bool.or_eq_true]
    rcases htouch with hc | hc
    · exact Or.inl (by rw [← hfrom]; exact step e'.fromId (Or.inr rfl) hc)
    · exact Or.inr (by rw [← hto]; exact step e'.toId (Or.inl rfl) hc)
  -- Second pass keeps every surviving vertex.
  have hB : keptVertexes p (keptVertexes p st.vertexes st.edges)
        (setEdgeIndex ((keptEdges p st.vertexes st.edges).map normEdge))
      = keptVertexes p st.vertexes st.edges := by
    have base := hA
    simp only [keptVertexes] at base ⊢
    rw [base]
    rw [List.filter_eq_self]
    intro v hv
    have hvin : v.id ∈ vertexIdsOfKeptV (keptEdges p st.vertexes st.edges) := by
      have := List.of_mem_filter hv
      simpa using this
    have : v.id ∈ vertexIdsOfKeptV
        (setEdgeIndex ((keptEdges p st.vertexes st.edges).map normEdge)) :=
      mem_pool_mono hpairs.symm v.id hvin
    simpa using this
  constructor
  · show (keptVertexes p ((keptVertexes p st.vertexes st.edges).map normVertex)
        (setEdgeIndex ((keptEdges p st.vertexes st.edges).map normEdge))).map normVertex
      = (keptVertexes p st.vertexes st.edges).map normVertex
    rw [hv1, hB]
    exact hv1
  · show setEdgeIndex ((keptEdges p ((keptVertexes p st.vertexes st.edges).map normVertex)
        (setEdgeIndex ((keptEdges p st.vertexes st.edges).map normEdge))).map normEdge)
      = setEdgeIndex ((keptEdges p st.vertexes st.edges).map normEdge)
    rw [hv1, hA, map_normEdge_of_loaded loadedP1, setEdgeIndex_idem]

/-- Filtering a spliced-back list recovers exactly the spliced values, for
conditions reading only the endpoints (which the splice preserves
position-wise). -/
theorem spliceBack_filter (cond : Edge → Bool)
    (hcond : ∀ e₁ e₂ : Edge, e₁.fromId = e₂.fromId → e₁.toId = e₂.toId →
      cond e₁ = cond e₂) :
    ∀ orig proc : List Edge,
      proc.map (fun e => (e.fromId, e.toId)) =
        (orig.filter cond).map (fun e => (e.fromId, e.toId)) →
      (spliceBack cond orig proc).filter cond = proc := by
  intro orig
  induction orig with
  | nil =>
    intro proc h
    have : proc = [] := by simpa using h
    subst this
    rfl
  | cons e tl ih =>
    intro proc h
    by_cases hc : cond e = true
    · rw [List.filter_cons_of_pos hc] at h
      cases proc with
      | nil => simp at h
      | cons q ps =>
        simp only [List.map_cons, List.cons.injEq] at h
        obtain ⟨hq, hps⟩ := h
        have hcq : cond q = true := by
          rw [hcond q e (congrArg Prod.fst hq) (congrArg Prod.snd hq)]
          exact hc
        simp only [spliceBack, hc, if_true]
        rw [List.filter_cons_of_pos hcq, ih ps hps]
    · rw [List.filter_cons_of_neg (by simpa using hc)] at h
      simp only [spliceBack]
      rw [if_neg hc, List.filter_cons_of_neg (by simpa using hc), ih proc h]

/-- A predicate insensitive to `state` gives the same verdict on a
normalised vertex. -/
theorem p_normVertex {p : Vertex → Bool}
    (hp : ∀ (v : Vertex) (s : Option String), p { v with state := s } = p v)
    (v : Vertex) : p (normVertex v) = p v := by
  rw [normVertex]
  exact hp v _

/-- The filter ids a raw re-filter computes from the state-polluted snapshot
coincide with the original ones, for state-insensitive predicates. -/
theorem propagated_filterIds {p : Vertex → Bool}
    (hp : ∀ (v : Vertex) (s : Option String), p { v with state := s } = p v)
    (c : Vertex → Bool) (D : List Vertex) :
    (((D.map fun v => if c v then normVertex v else v).filter p).map (·.id)) =
      (D.filter p).map (·.id) := by
  induction D with
  | nil => rfl
  | cons v tl ih =>
    simp only [List.map_cons]
    by_cases hcv : c v = true
    · rw [if_pos hcv]
      by_cases hpv : p v = true
      · rw [List.filter_cons_of_pos (by rw [p_normVertex hp]; exact hpv),
          List.filter_cons_of_pos hpv]
        simp only [List.map_cons]
        rw [ih]
        rfl
      · rw [List.filter_cons_of_neg (by rw [p_normVertex hp]; simpa using hpv),
          List.filter_cons_of_neg (by simpa using hpv), ih]
    · rw [if_neg hcv]
      by_cases hpv : p v = true
      · rw [List.filter_cons_of_pos hpv, List.filter_cons_of_pos hpv]
        simp only [List.map_cons]
        rw [ih]
      · rw [List.filter_cons_of_neg (by simpa using hpv),
          List.filter_cons_of_neg (by simpa using hpv), ih]

/-- A raw re-filter's surviving vertices are the normalised originals: the
pool is membership-equal, ids are untouched by normalisation, and exactly the
previously-kept elements were normalised in place. -/
theorem propagated_keptV (ids1 ids2 : List String)
    (hmem : ∀ y, y ∈ ids2 ↔ y ∈ ids1) (D : List Vertex) :
    ((D.map fun v => if ids1.contains v.id then normVertex v else v).filter
        fun v => ids2.contains v.id) =
      (D.filter fun v => ids1.contains v.id).map normVertex := by
  induction D with
  | nil => rfl
  | cons v tl ih =>
    have hcv : ids2.contains v.id = ids1.contains v.id :=
      contains_congr_of_mem_iff hmem v.id
    simp only [List.map_cons]
    by_cases hc : ids1.contains v.id = true
    · rw [if_pos hc]
      have hnorm : ids2.contains (normVertex v).id = true := by
        rw [show (normVertex v).id = v.id from rfl, hcv]
        exact hc
      simp only [List.filter_cons]
      rw [if_pos hnorm, if_pos hc]
      simp only [List.map_cons]
      rw [ih]
    · rw [if_neg hc]
      have hnot : ¬ ids2.contains v.id = true := by
        rw [hcv]
        simpa using hc
      simp only [List.filter_cons]
      rw [if_neg hnot, if_neg hc]
      exact ih

/-- Raw-snapshot-mode `filterVertex` is idempotent for predicates insensitive
to the `state` field: the first pass pollutes the shared snapshot elements
only in `state` (and in the recomputed `setEdgeIndex` fields of edges), which
such a predicate cannot observe, so the second pass selects the same
elements. -/
theorem filterVertex_raw_idem (p : Vertex → Bool)
    (hp : ∀ (v : Vertex) (s : Option String), p { v with state := s } = p v)
    (st : ForceState) :
    (filterVertex p true (filterVertex p true st)).vertexes
        = (filterVertex p true st).vertexes ∧
      (filterVertex p true (filterVertex p true st)).edges
        = (filterVertex p true st).edges := by
  have hpairs : (setEdgeIndex ((keptEdges p st.dataV st.dataE).map normEdge)).map
        (fun e => (e.fromId, e.toId))
      = (keptEdges p st.dataV st.dataE).map (fun e => (e.fromId, e.toId)) :=
    processed_pairs _
  have hF : (((st.dataV.map fun v =>
        if (vertexIdsOfKeptV (keptEdges p st.dataV st.dataE)).contains v.id then
          normVertex v else v).filter p).map (·.id))
      = (st.dataV.filter p).map (·.id) :=
    propagated_filterIds hp _ st.dataV
  have hcond : ∀ e₁ e₂ : Edge, e₁.fromId = e₂.fromId → e₁.toId = e₂.toId →
      touchesFilterIds ((st.dataV.filter p).map (·.id)) e₁ =
        touchesFilterIds ((st.dataV.filter p).map (·.id)) e₂ := by
    intro e₁ e₂ h1 h2
    simp [touchesFilterIds, h1, h2]
  have hsplice : (spliceBack (touchesFilterIds ((st.dataV.filter p).map (·.id)))
          st.dataE (setEdgeIndex ((keptEdges p st.dataV st.dataE).map normEdge))).filter
        (touchesFilterIds ((st.dataV.filter p).map (·.id)))
      = setEdgeIndex ((keptEdges p st.dataV st.dataE).map normEdge) :=
    spliceBack_filter _ hcond st.dataE _ hpairs
  have hE2 : keptEdges p (filterVertex p true st).dataV (filterVertex p true st).dataE
      = setEdgeIndex ((keptEdges p st.dataV st.dataE).map normEdge) := by
    show (spliceBack (touchesFilterIds ((st.dataV.filter p).map (·.id)))
          st.dataE (setEdgeIndex ((keptEdges p st.dataV st.dataE).map normEdge))).filter
        (touchesFilterIds (((st.dataV.map fun v =>
          if (vertexIdsOfKeptV (keptEdges p st.dataV st.dataE)).contains v.id then
            normVertex v else v).filter p).map (·.id)))
      = setEdgeIndex ((keptEdges p st.dataV st.dataE).map normEdge)
    rw [hF]
    exact hsplice
  have hpool : ∀ y : String,
      y ∈ vertexIdsOfKeptV (keptEdges p (filterVertex p true st).dataV
        (filterVertex p true st).dataE)
        ↔ y ∈ vertexIdsOfKeptV (keptEdges p st.dataV st.dataE) := by
    intro y
    rw [hE2]
    exact mem_pool_congr hpairs y
  have hV2 : keptVertexes p (filterVertex p true st).dataV (filterVertex p true st).dataE
      = (keptVertexes p st.dataV st.dataE).map normVertex := by
    show ((st.dataV.map fun v =>
        if (vertexIdsOfKeptV (keptEdges p st.dataV st.dataE)).contains v.id then
          normVertex v else v).filter fun v =>
          (vertexIdsOfKeptV (keptEdges p (filterVertex p true st).dataV
            (filterVertex p true st).dataE)).contains v.id)
      = (keptVertexes p st.dataV st.dataE).map normVertex
    exact propagated_keptV _ _ hpool st.dataV
  have loadedNorm : ∀ e ∈ (keptEdges p st.dataV st.dataE).map normEdge, e.state.isSome := by
    intro e he
    obtain ⟨e', _, rfl⟩ := List.mem_map.mp he
    simp [normEdge]
  have loadedP1 : ∀ e ∈ setEdgeIndex ((keptEdges p st.dataV st.dataE).map normEdge),
      e.state.isSome := setEdgeIndex_state_isSome loadedNorm
  constructor
  · show (keptVertexes p (filterVertex p true st).dataV
          (filterVertex p true st).dataE).map normVertex
      = (keptVertexes p st.dataV st.dataE).map normVertex
    rw [hV2, map_normVertex_idem]
  · show setEdgeIndex ((keptEdges p (filterVertex p true st).dataV
          (filterVertex p true st).dataE).map normEdge)
      = setEdgeIndex ((keptEdges p st.dataV st.dataE).map normEdge)
    rw [hE2, map_normEdge_of_loaded loadedP1, setEdgeIndex_idem]

/-- Claim C6, amended: `filterVertex(p)` applied twice yields the same
working vertex and edge sets as applying it once (a) in working-set mode, for
every pure element predicate, on a loaded graph (every working vertex carries
a `state`, as preprocessing guarantees); and (b) in raw-snapshot mode, for
every predicate insensitive to the `state` field — the counterexample forces
this restriction, because a raw pass writes `state` into the shared snapshot
elements in place. -/
theorem filterVertex_idempotent_amended :
    (∀ (p : Vertex → Bool) (st : ForceState),
      (∀ v ∈ st.vertexes, v.state.isSome) →
      ((filterVertex p false (filterVertex p false st)).vertexes
          = (filterVertex p false st).vertexes ∧
        (filterVertex p false (filterVertex p false st)).edges
          = (filterVertex p false st).edges)) ∧
    (∀ p : Vertex → Bool,
      (∀ (v : Vertex) (s : Option String), p { v with state := s } = p v) →
      ∀ st : ForceState,
      ((filterVertex p true (filterVertex p true st)).vertexes
          = (filterVertex p true st).vertexes ∧
        (filterVertex p true (filterVertex p true st)).edges
          = (filterVertex p true st).edges)) :=
  ⟨filterVertex_nonraw_idem, fun p hp st => filterVertex_raw_idem p hp st⟩

/-- Witness for the amended idempotence theorem: the keep-A predicate on the
loaded A→B→C chain, in both modes (it reads only `_id`, hence is
state-insensitive). -/
theorem filterVertex_idempotent_amended_witness :
    ((filterVertex (fun v => v.id == "A") false
          (filterVertex (fun v => v.id == "A") false stChain)).vertexes
        = (filterVertex (fun v => v.id == "A") false stChain).vertexes ∧
      (filterVertex (fun v => v.id == "A") false
          (filterVertex (fun v => v.id == "A") false stChain)).edges
        = (filterVertex (fun v => v.id == "A") false stChain).edges) ∧
    ((filterVertex (fun v => v.id == "A") true
          (filterVertex (fun v => v.id == "A") true stChain)).vertexes
        = (filterVertex (fun v => v.id == "A") true stChain).vertexes ∧
      (filterVertex (fun v => v.id == "A") true
          (filterVertex (fun v => v.id == "A") true stChain)).edges
        = (filterVertex (fun v => v.id == "A") true stChain).edges) :=
  ⟨filterVertex_idempotent_amended.1 (fun v => v.id == "A") stChain (by decide),
   filterVertex_idempotent_amended.2 (fun v => v.id == "A") (fun v s => rfl) stChain⟩

end ForceGraph
